import Mathlib

/-!
Shallow embedding of `src/python/dgl/mock_dgl_sparse/python/sp_matrix.py`.

A torch sparse COO tensor is modelled as its two inferred sizes together with
the list of `((row, col), value)` entries.  `torch.sparse_coo_tensor(i, val)`
infers each size as `max index + 1`, and `.coalesce()` sorts the entries
lexicographically by coordinate and sums the values of duplicate coordinates;
`coalesce` below implements exactly that by ordered insertion with merging.
Values are modelled as integers (the claims under study do not depend on the
floating-point nature of torch values).
-/

abbrev Coord := Nat × Nat

abbrev Entry := Coord × Int

/-- Lexicographic (row-major) order on coordinates: the order in which
`torch.Tensor.coalesce` lays out the stored entries. -/
def coordLt (a b : Coord) : Prop :=
  a.1 < b.1 ∨ (a.1 = b.1 ∧ a.2 < b.2)

instance (a b : Coord) : Decidable (coordLt a b) := by
  unfold coordLt; exact inferInstance

/-- Insert one entry into a coordinate-sorted entry list, summing values when
the coordinate is already present (the merging step of `coalesce`). -/
def insertCoalesce (e : Entry) : List Entry → List Entry
  | [] => [e]
  | f :: rest =>
    if e.1 = f.1 then (f.1, f.2 + e.2) :: rest
    else if coordLt e.1 f.1 then e :: f :: rest
    else f :: insertCoalesce e rest

/-- Model of `torch.Tensor.coalesce` on the entry list: sort lexicographically by
coordinate and sum the values of duplicate coordinates. -/
def coalesce : List Entry → List Entry
  | [] => []
  | e :: rest => insertCoalesce e (coalesce rest)

/-- Coordinate-level shadow of `insertCoalesce` (what insertion does to the
list of coordinates, ignoring values). -/
def insertKey (c : Coord) : List Coord → List Coord
  | [] => [c]
  | d :: rest =>
    if c = d then d :: rest
    else if coordLt c d then c :: d :: rest
    else d :: insertKey c rest

/-- Coordinate-level shadow of `coalesce`. -/
def coalesceKeys : List Coord → List Coord
  | [] => []
  | c :: rest => insertKey c (coalesceKeys rest)

/-- Maximum of a list of naturals (`0` for the empty list); used for the size
inference of `torch.sparse_coo_tensor`. -/
def maxL : List Nat → Nat
  | [] => 0
  | x :: xs => max x (maxL xs)

/-- Model of a torch sparse COO tensor: the two inferred sizes and the entry
list. -/
structure SparseCOO where
  size0 : Nat
  size1 : Nat
  entries : List Entry
deriving Repr, DecidableEq

/-- Model of `torch.sparse_coo_tensor(i, val)` where `i` stacks `row` and `col`:
sizes are inferred as `max + 1` in each dimension and the entries are kept
uncoalesced, in input order. -/
def sparse_coo_tensor (row col : List Nat) (val : List Int) : SparseCOO :=
  ⟨maxL row + 1, maxL col + 1, (row.zip col).zip val⟩

/-- Applies `.coalesce()` to the modelled tensor. -/
def SparseCOO.coalesceT (t : SparseCOO) : SparseCOO :=
  ⟨t.size0, t.size1, coalesce t.entries⟩

/-- The `SparseMatrix` class: the three stored arrays `_row`, `_col`, `_val`
and the coalesced internal tensor `adj`. -/
structure SparseMatrix where
  _row : List Nat
  _col : List Nat
  _val : List Int
  adj : SparseCOO
deriving Repr, DecidableEq

/-- Model of `SparseMatrix.__init__`: store the inputs, default `val` to all ones of
the input length, and build `adj` as the coalesced sparse COO tensor. -/
def SparseMatrix.init (row col : List Nat) (val? : Option (List Int)) :
    SparseMatrix :=
  let val := val?.getD (List.replicate row.length 1)
  { _row := row, _col := col, _val := val,
    adj := (sparse_coo_tensor row col val).coalesceT }

/-- The `shape` property: `(adj.shape[0], adj.shape[1])`. -/
def SparseMatrix.shape (A : SparseMatrix) : Nat × Nat :=
  (A.adj.size0, A.adj.size1)

/-- The `nnz` property: `adj._nnz()`, the number of stored (coalesced)
entries. -/
def SparseMatrix.nnz (A : SparseMatrix) : Nat :=
  A.adj.entries.length

/-- The `row` property: `adj.indices()[0]`, the coalesced row indices. -/
def SparseMatrix.row (A : SparseMatrix) : List Nat :=
  A.adj.entries.map (fun e => e.1.1)

/-- The `col` property: `adj.indices()[1]`, the coalesced column indices. -/
def SparseMatrix.col (A : SparseMatrix) : List Nat :=
  A.adj.entries.map (fun e => e.1.2)

/-- The `val` property: returns the stored `_val` unchanged. -/
def SparseMatrix.val (A : SparseMatrix) : List Int :=
  A._val

/-- The `val` setter: `assert len(x) == self.nnz` then replace `_val`.
`none` models the `AssertionError`. -/
def SparseMatrix.setVal (A : SparseMatrix) (x : List Int) :
    Option SparseMatrix :=
  if x.length = A.nnz then some { A with _val := x } else none

/-- Model of `SparseMatrix.__call__`: `assert len(x) == self.nnz` then build
`SparseMatrix(self.row, self.col, x)`. `none` models the `AssertionError`. -/
def SparseMatrix.call (A : SparseMatrix) (x : List Int) :
    Option SparseMatrix :=
  if x.length = A.nnz then some (SparseMatrix.init A.row A.col (some x))
  else none

/-- Model of `SparseMatrix.indices`: returns `adj.indices()` (the pair of coalesced
row and column index arrays) for `format == 'COO'` with no shuffle, and
raises `NotImplementedError` (modelled as `none`) otherwise. -/
def SparseMatrix.indices (A : SparseMatrix) (format : String)
    (return_shuffle : Bool) : Option (List Nat × List Nat) :=
  if format = "COO" ∧ return_shuffle = false then some (A.row, A.col)
  else none

/-- Model of `SparseMatrix.coo`: returns `self`. -/
def SparseMatrix.coo (A : SparseMatrix) : SparseMatrix := A

/-- Model of `SparseMatrix.csr`: returns `self`. -/
def SparseMatrix.csr (A : SparseMatrix) : SparseMatrix := A

/-- Model of `SparseMatrix.csc`: returns `self`. -/
def SparseMatrix.csc (A : SparseMatrix) : SparseMatrix := A

/-- Value stored at a coordinate in an entry list (`0` when absent; first
match wins, which coincides with the unique match on coalesced lists). -/
def findVal : List Entry → Coord → Int
  | [], _ => 0
  | e :: rest, c => if e.1 = c then e.2 else findVal rest c

/-- Model of `SparseMatrix.dense`: `adj.to_dense()`, modelled as the function giving
the stored value at each coordinate and `0` elsewhere. -/
def SparseMatrix.dense (A : SparseMatrix) : Nat → Nat → Int :=
  fun i j => findVal A.adj.entries (i, j)

/-- Row expansion performed by `to_sparse_coo()` on a CSR tensor: row `i`
is repeated `indptr[i+1] - indptr[i]` times. -/
def csrExpandRows : Nat → List Nat → List Nat
  | i, a :: b :: rest => List.replicate (b - a) i ++ csrExpandRows (i + 1) (b :: rest)
  | _, _ => []

/-- Model of `create_from_coo`: delegates to the `SparseMatrix` constructor. -/
def create_from_coo (row col : List Nat) (val? : Option (List Int)) :
    SparseMatrix :=
  SparseMatrix.init row col val?

/-- Model of `create_from_csr`: build a CSR tensor with all-one values, convert it to
coalesced COO, read off the row and column indices, and construct a
`SparseMatrix` from them with the given values. -/
def create_from_csr (indptr indices : List Nat) (val? : Option (List Int)) :
    SparseMatrix :=
  let row0 := csrExpandRows 0 indptr
  let adj_coo := (sparse_coo_tensor row0 indices
      (List.replicate indices.length 1)).coalesceT
  let row := adj_coo.entries.map (fun e => e.1.1)
  let col := adj_coo.entries.map (fun e => e.1.2)
  SparseMatrix.init row col val?

/-- Model of `create_from_csc`: same as `create_from_csr` but the coalesced COO
indices are read back as `col, row` (the pointer dimension becomes the
column dimension). -/
def create_from_csc (indptr indices : List Nat) (val? : Option (List Int)) :
    SparseMatrix :=
  let col0 := csrExpandRows 0 indptr
  let adj_coo := (sparse_coo_tensor col0 indices
      (List.replicate indices.length 1)).coalesceT
  let col := adj_coo.entries.map (fun e => e.1.1)
  let row := adj_coo.entries.map (fun e => e.1.2)
  SparseMatrix.init row col val?

/-- A coordinate list is strictly sorted in the coalesced (row-major) order. -/
def sortedK (ks : List Coord) : Prop :=
  List.Pairwise coordLt ks

/-- Well-formedness of a `SparseMatrix`: its internal tensor is coalesced,
i.e. its coordinates are strictly sorted. Every matrix built by the
constructor satisfies this. -/
def SparseMatrix.WF (A : SparseMatrix) : Prop :=
  sortedK (A.adj.entries.map (fun e => e.1))

/-- The length invariant of the spec's data model: the row, column and value
arrays returned by the accessors all have length `nnz`. -/
def lenInv (A : SparseMatrix) : Prop :=
  A.row.length = A.nnz ∧ A.col.length = A.nnz ∧ A.val.length = A.nnz

instance (ks : List Coord) : Decidable (sortedK ks) := by
  unfold sortedK; exact inferInstance

instance (A : SparseMatrix) : Decidable A.WF := by
  unfold SparseMatrix.WF; exact inferInstance

instance (A : SparseMatrix) : Decidable (lenInv A) := by
  unfold lenInv; exact inferInstance

/-! ### Order facts about `coordLt` -/

theorem coordLt_trans {a b c : Coord} (h1 : coordLt a b) (h2 : coordLt b c) :
    coordLt a c := by
  rcases a with ⟨a1, a2⟩; rcases b with ⟨b1, b2⟩; rcases c with ⟨c1, c2⟩
  simp only [coordLt] at *
  omega

theorem coordLt_irrefl (a : Coord) : ¬ coordLt a a := by
  rcases a with ⟨a1, a2⟩
  simp only [coordLt]
  omega

theorem coordLt_ne {a b : Coord} (h : coordLt a b) : a ≠ b := by
  rintro rfl; exact coordLt_irrefl a h

theorem coordLt_total {a b : Coord} (hne : a ≠ b) (h : ¬ coordLt a b) :
    coordLt b a := by
  rcases a with ⟨a1, a2⟩; rcases b with ⟨b1, b2⟩
  have hne' : a1 ≠ b1 ∨ a2 ≠ b2 := by
    by_contra hc
    push_neg at hc
    exact hne (by rw [hc.1, hc.2])
  simp only [coordLt, not_or, not_and, not_lt] at h
  simp only [coordLt]
  omega

/-! ### Key-level behaviour of coalescing -/

theorem mem_insertKey {c d : Coord} {ks : List Coord} :
    c ∈ insertKey d ks ↔ c = d ∨ c ∈ ks := by
  induction ks with
  | nil => simp [insertKey]
  | cons k rest ih =>
    show c ∈ (if d = k then k :: rest
      else if coordLt d k then d :: k :: rest else k :: insertKey d rest) ↔ _
    by_cases h1 : d = k
    · subst h1
      rw [if_pos rfl]
      simp only [List.mem_cons]
      tauto
    · by_cases h2 : coordLt d k
      · rw [if_neg h1, if_pos h2]
        simp only [List.mem_cons]
      · rw [if_neg h1, if_neg h2]
        simp only [List.mem_cons, ih]
        tauto

theorem mem_coalesceKeys {c : Coord} {ks : List Coord} :
    c ∈ coalesceKeys ks ↔ c ∈ ks := by
  induction ks with
  | nil => simp [coalesceKeys]
  | cons k rest ih =>
    simp only [coalesceKeys, mem_insertKey, List.mem_cons, ih]

theorem sorted_insertKey {c : Coord} {ks : List Coord} (h : sortedK ks) :
    sortedK (insertKey c ks) := by
  induction ks with
  | nil => simp [insertKey, sortedK]
  | cons k rest ih =>
    rcases List.pairwise_cons.mp h with ⟨hk, hrest⟩
    by_cases h1 : c = k
    · simpa [insertKey, if_pos h1, sortedK] using h
    · by_cases h2 : coordLt c k
      · simp only [insertKey, if_neg h1, if_pos h2]
        refine List.pairwise_cons.mpr ⟨?_, h⟩
        intro b hb
        rcases List.mem_cons.mp hb with rfl | hb
        · exact h2
        · exact coordLt_trans h2 (hk b hb)
      · simp only [insertKey, if_neg h1, if_neg h2]
        refine List.pairwise_cons.mpr ⟨?_, ih hrest⟩
        intro b hb
        rcases mem_insertKey.mp hb with rfl | hb
        · exact coordLt_total h1 h2
        · exact hk b hb

theorem sorted_coalesceKeys (ks : List Coord) : sortedK (coalesceKeys ks) := by
  induction ks with
  | nil => simp [coalesceKeys, sortedK]
  | cons k rest ih => exact sorted_insertKey ih

theorem length_insertKey_of_not_mem {c : Coord} {ks : List Coord}
    (h : c ∉ ks) : (insertKey c ks).length = ks.length + 1 := by
  induction ks with
  | nil => simp [insertKey]
  | cons k rest ih =>
    have h1 : c ≠ k := by intro h1; exact h (h1 ▸ List.mem_cons_self c rest)
    have h2 : c ∉ rest := fun hmem => h (List.mem_cons_of_mem k hmem)
    by_cases hlt : coordLt c k
    · simp [insertKey, if_neg h1, if_pos hlt]
    · simp [insertKey, if_neg h1, if_neg hlt, ih h2]

theorem length_coalesceKeys_of_nodup {ks : List Coord} (h : ks.Nodup) :
    (coalesceKeys ks).length = ks.length := by
  induction ks with
  | nil => rfl
  | cons k rest ih =>
    rcases List.nodup_cons.mp h with ⟨hk, hrest⟩
    have : k ∉ coalesceKeys rest := fun hmem => hk (mem_coalesceKeys.mp hmem)
    simp [coalesceKeys, length_insertKey_of_not_mem this, ih hrest]

theorem nodup_of_sortedK {ks : List Coord} (h : sortedK ks) : ks.Nodup :=
  h.imp coordLt_ne

/-! ### Entry-level behaviour of coalescing -/

theorem keys_insertCoalesce (e : Entry) (l : List Entry) :
    (insertCoalesce e l).map (fun x => x.1) =
      insertKey e.1 (l.map (fun x => x.1)) := by
  induction l with
  | nil => rfl
  | cons f rest ih =>
    simp only [insertCoalesce, List.map_cons, insertKey]
    by_cases h1 : e.1 = f.1
    · simp [h1]
    · by_cases h2 : coordLt e.1 f.1
      · simp [h1, h2]
      · simp [h1, h2, ih]

theorem keys_coalesce (l : List Entry) :
    (coalesce l).map (fun x => x.1) = coalesceKeys (l.map (fun x => x.1)) := by
  induction l with
  | nil => rfl
  | cons e rest ih =>
    simp only [coalesce, coalesceKeys, List.map_cons, keys_insertCoalesce, ih]

theorem sorted_keys_coalesce (l : List Entry) :
    sortedK ((coalesce l).map (fun x => x.1)) := by
  rw [keys_coalesce]
  exact sorted_coalesceKeys _

theorem mem_keys_coalesce {c : Coord} {l : List Entry} :
    c ∈ (coalesce l).map (fun x => x.1) ↔ c ∈ l.map (fun x => x.1) := by
  rw [keys_coalesce]
  exact mem_coalesceKeys

theorem insertCoalesce_of_forall_lt {e : Entry} {l : List Entry}
    (h : ∀ f ∈ l, coordLt e.1 f.1) : insertCoalesce e l = e :: l := by
  cases l with
  | nil => rfl
  | cons f rest =>
    have hlt := h f (List.mem_cons_self f rest)
    simp only [insertCoalesce]
    rw [if_neg (coordLt_ne hlt), if_pos hlt]

theorem coalesce_of_sorted {l : List Entry}
    (h : sortedK (l.map (fun x => x.1))) : coalesce l = l := by
  induction l with
  | nil => rfl
  | cons e rest ih =>
    simp only [List.map_cons, sortedK, List.pairwise_cons] at h
    rcases h with ⟨he, hrest⟩
    simp only [coalesce, ih hrest]
    apply insertCoalesce_of_forall_lt
    intro f hf
    exact he f.1 (List.mem_map_of_mem _ hf)

theorem length_coalesce_of_nodup {l : List Entry}
    (h : (l.map (fun x => x.1)).Nodup) : (coalesce l).length = l.length := by
  have h1 : (coalesce l).length = ((coalesce l).map (fun x => x.1)).length :=
    (List.length_map _ _).symm
  rw [h1, keys_coalesce, length_coalesceKeys_of_nodup h, List.length_map]

/-! ### Facts about `maxL` and `findVal` -/

theorem le_maxL_of_mem {x : Nat} {l : List Nat} (h : x ∈ l) : x ≤ maxL l := by
  induction l with
  | nil => cases h
  | cons y ys ih =>
    rcases List.mem_cons.mp h with rfl | h
    · exact le_max_left _ _
    · exact le_trans (ih h) (le_max_right _ _)

theorem maxL_le {l : List Nat} {m : Nat} (h : ∀ x ∈ l, x ≤ m) : maxL l ≤ m := by
  induction l with
  | nil => exact Nat.zero_le m
  | cons y ys ih =>
    simp only [maxL, max_le_iff]
    exact ⟨h y (List.mem_cons_self _ _), ih fun x hx => h x (List.mem_cons_of_mem _ hx)⟩

theorem maxL_eq_of_mem_iff {l l' : List Nat} (h : ∀ x, x ∈ l ↔ x ∈ l') :
    maxL l = maxL l' := by
  apply le_antisymm
  · exact maxL_le fun x hx => le_maxL_of_mem ((h x).mp hx)
  · exact maxL_le fun x hx => le_maxL_of_mem ((h x).mpr hx)

theorem findVal_get_of_nodup {l : List Entry}
    (h : (l.map (fun x => x.1)).Nodup) (k : Nat) (hk : k < l.length) :
    findVal l (l.get ⟨k, hk⟩).1 = (l.get ⟨k, hk⟩).2 := by
  induction l generalizing k with
  | nil => exact absurd hk (Nat.not_lt_zero k)
  | cons e rest ih =>
    simp only [List.map_cons, List.nodup_cons] at h
    rcases h with ⟨he, hrest⟩
    cases k with
    | zero => simp [findVal]
    | succ k =>
      have hk' : k < rest.length := Nat.lt_of_succ_lt_succ hk
      have hget : ((e :: rest).get ⟨k + 1, hk⟩) = rest.get ⟨k, hk'⟩ := rfl
      rw [hget]
      have hne : e.1 ≠ (rest.get ⟨k, hk'⟩).1 := by
        intro hEq
        exact he (hEq ▸ List.mem_map_of_mem _ (rest.get_mem k hk'))
      simp only [findVal, if_neg hne]
      exact ih hrest k hk'

/-! ### Key-level fixed point and construction-level facts -/

theorem insertKey_of_forall_lt {c : Coord} {ks : List Coord}
    (h : ∀ d ∈ ks, coordLt c d) : insertKey c ks = c :: ks := by
  cases ks with
  | nil => rfl
  | cons d rest =>
    have hlt := h d (List.mem_cons_self d rest)
    simp only [insertKey]
    rw [if_neg (coordLt_ne hlt), if_pos hlt]

theorem coalesceKeys_of_sorted {ks : List Coord} (h : sortedK ks) :
    coalesceKeys ks = ks := by
  induction ks with
  | nil => rfl
  | cons c rest ih =>
    rcases List.pairwise_cons.mp h with ⟨hc, hrest⟩
    simp only [coalesceKeys, ih hrest]
    exact insertKey_of_forall_lt hc

theorem map_rowIdx (l : List Entry) :
    l.map (fun e => e.1.1) = (l.map (fun e => e.1)).map Prod.fst := by
  rw [List.map_map]
  rfl

theorem map_colIdx (l : List Entry) :
    l.map (fun e => e.1.2) = (l.map (fun e => e.1)).map Prod.snd := by
  rw [List.map_map]
  rfl

theorem zip_map_fst_snd (l : List Entry) :
    (l.map (fun e => e.1.1)).zip (l.map (fun e => e.1.2)) =
      l.map (fun e => e.1) := by
  rw [List.zip_map']

theorem keys_zip_zip {row col : List Nat} {val : List Int}
    (hrc : row.length = col.length) (hrv : row.length = val.length) :
    (((row.zip col).zip val).map (fun x => x.1)) = row.zip col := by
  have h : (row.zip col).length ≤ val.length := by
    rw [List.length_zip]; omega
  exact List.map_fst_zip _ _ h

theorem init_adj_entries (row col : List Nat) (val? : Option (List Int)) :
    (SparseMatrix.init row col val?).adj.entries =
      coalesce ((row.zip col).zip
        (val?.getD (List.replicate row.length 1))) := rfl

theorem init_WF (row col : List Nat) (val? : Option (List Int)) :
    (SparseMatrix.init row col val?).WF :=
  sorted_keys_coalesce _

theorem row_zip_col (A : SparseMatrix) :
    A.row.zip A.col = A.adj.entries.map (fun e => e.1) :=
  zip_map_fst_snd A.adj.entries

theorem init_keys {row col : List Nat} {val : List Int}
    (hrc : row.length = col.length) (hrv : row.length = val.length) :
    (SparseMatrix.init row col (some val)).adj.entries.map (fun e => e.1) =
      coalesceKeys (row.zip col) := by
  rw [init_adj_entries]
  simp only [Option.getD_some]
  rw [keys_coalesce, keys_zip_zip hrc hrv]

theorem init_entries_of_sorted {row col : List Nat} {val : List Int}
    (hrc : row.length = col.length) (hrv : row.length = val.length)
    (hs : sortedK (row.zip col)) :
    (SparseMatrix.init row col (some val)).adj.entries =
      (row.zip col).zip val := by
  rw [init_adj_entries]
  simp only [Option.getD_some]
  apply coalesce_of_sorted
  rw [keys_zip_zip hrc hrv]
  exact hs

theorem init_row_of_sorted {row col : List Nat} {val : List Int}
    (hrc : row.length = col.length) (hrv : row.length = val.length)
    (hs : sortedK (row.zip col)) :
    (SparseMatrix.init row col (some val)).row = row := by
  show (SparseMatrix.init row col (some val)).adj.entries.map
    (fun e => e.1.1) = row
  rw [init_entries_of_sorted hrc hrv hs, map_rowIdx, keys_zip_zip hrc hrv]
  exact List.map_fst_zip _ _ (le_of_eq hrc)

theorem init_col_of_sorted {row col : List Nat} {val : List Int}
    (hrc : row.length = col.length) (hrv : row.length = val.length)
    (hs : sortedK (row.zip col)) :
    (SparseMatrix.init row col (some val)).col = col := by
  show (SparseMatrix.init row col (some val)).adj.entries.map
    (fun e => e.1.2) = col
  rw [init_entries_of_sorted hrc hrv hs, map_colIdx, keys_zip_zip hrc hrv]
  exact List.map_snd_zip _ _ (le_of_eq hrc.symm)

theorem mem_row_init {row col : List Nat} {val : List Int}
    (hrc : row.length = col.length) (hrv : row.length = val.length)
    (x : Nat) :
    x ∈ (SparseMatrix.init row col (some val)).row ↔ x ∈ row := by
  show x ∈ (SparseMatrix.init row col (some val)).adj.entries.map
    (fun e => e.1.1) ↔ _
  rw [map_rowIdx, init_keys hrc hrv]
  constructor
  · intro hx
    rcases List.mem_map.mp hx with ⟨c, hc, rfl⟩
    have hc' := mem_coalesceKeys.mp hc
    rcases c with ⟨a, b⟩
    exact (List.of_mem_zip hc').1
  · intro hx
    rcases List.mem_iff_get.mp hx with ⟨⟨k, hk⟩, hkx⟩
    have hkz : k < (row.zip col).length := by rw [List.length_zip]; omega
    have hmem : (row.zip col).get ⟨k, hkz⟩ ∈ row.zip col :=
      List.get_mem _ _ _
    refine List.mem_map.mpr
      ⟨(row.zip col).get ⟨k, hkz⟩, mem_coalesceKeys.mpr hmem, ?_⟩
    rw [List.get_zip]
    exact hkx
  
theorem mem_col_init {row col : List Nat} {val : List Int}
    (hrc : row.length = col.length) (hrv : row.length = val.length)
    (x : Nat) :
    x ∈ (SparseMatrix.init row col (some val)).col ↔ x ∈ col := by
  show x ∈ (SparseMatrix.init row col (some val)).adj.entries.map
    (fun e => e.1.2) ↔ _
  rw [map_colIdx, init_keys hrc hrv]
  constructor
  · intro hx
    rcases List.mem_map.mp hx with ⟨c, hc, rfl⟩
    have hc' := mem_coalesceKeys.mp hc
    rcases c with ⟨a, b⟩
    exact (List.of_mem_zip hc').2
  · intro hx
    rcases List.mem_iff_get.mp hx with ⟨⟨k, hk⟩, hkx⟩
    have hkz : k < (row.zip col).length := by rw [List.length_zip]; omega
    have hmem : (row.zip col).get ⟨k, hkz⟩ ∈ row.zip col :=
      List.get_mem _ _ _
    refine List.mem_map.mpr
      ⟨(row.zip col).get ⟨k, hkz⟩, mem_coalesceKeys.mpr hmem, ?_⟩
    rw [List.get_zip]
    exact hkx

theorem row_length_eq_nnz (A : SparseMatrix) : A.row.length = A.nnz := by
  show (A.adj.entries.map (fun e => e.1.1)).length = A.adj.entries.length
  rw [List.length_map]

theorem col_length_eq_nnz (A : SparseMatrix) : A.col.length = A.nnz := by
  show (A.adj.entries.map (fun e => e.1.2)).length = A.adj.entries.length
  rw [List.length_map]

theorem init_lenInv {row col : List Nat} {val? : Option (List Int)}
    (hrc : row.length = col.length)
    (hv : ∀ v, val? = some v → v.length = row.length)
    (hnd : (row.zip col).Nodup) :
    lenInv (SparseMatrix.init row col val?) := by
  have hvlen : (val?.getD (List.replicate row.length 1)).length =
      row.length := by
    cases val? with
    | none => simp
    | some v => simpa using hv v rfl
  refine ⟨row_length_eq_nnz _, col_length_eq_nnz _, ?_⟩
  show (val?.getD (List.replicate row.length 1)).length =
    (coalesce ((row.zip col).zip
      (val?.getD (List.replicate row.length 1)))).length
  rw [length_coalesce_of_nodup (by rw [keys_zip_zip hrc hvlen.symm]; exact hnd)]
  rw [List.length_zip, List.length_zip, hvlen]
  omega

theorem init_of_maps_lenInv {l : List Entry}
    (hs : sortedK (l.map (fun e => e.1))) {val? : Option (List Int)}
    (hv : ∀ v, val? = some v → v.length = l.length) :
    lenInv (SparseMatrix.init (l.map (fun e => e.1.1))
      (l.map (fun e => e.1.2)) val?) := by
  apply init_lenInv
  · rw [List.length_map, List.length_map]
  · intro v hvv
    rw [List.length_map]
    exact hv v hvv
  · rw [zip_map_fst_snd]
    exact nodup_of_sortedK hs

theorem create_from_csr_lenInv {indptr indices : List Nat}
    {val? : Option (List Int)}
    (hlen : (csrExpandRows 0 indptr).length = indices.length)
    (hv : ∀ v, val? = some v → v.length = indices.length)
    (hnd : ((csrExpandRows 0 indptr).zip indices).Nodup) :
    lenInv (create_from_csr indptr indices val?) := by
  have hclen : (coalesce (((csrExpandRows 0 indptr).zip indices).zip
      (List.replicate indices.length 1))).length = indices.length := by
    rw [length_coalesce_of_nodup (by
      rw [keys_zip_zip hlen (by rw [List.length_replicate]; exact hlen)]
      exact hnd)]
    rw [List.length_zip, List.length_zip, List.length_replicate]
    omega
  exact init_of_maps_lenInv (sorted_keys_coalesce _)
    (fun v hvv => (hv v hvv).trans hclen.symm)

theorem create_from_csc_lenInv {indptr indices : List Nat}
    {val? : Option (List Int)}
    (hlen : (csrExpandRows 0 indptr).length = indices.length)
    (hv : ∀ v, val? = some v → v.length = indices.length)
    (hnd : ((csrExpandRows 0 indptr).zip indices).Nodup) :
    lenInv (create_from_csc indptr indices val?) := by
  have hclen : (coalesce (((csrExpandRows 0 indptr).zip indices).zip
      (List.replicate indices.length 1))).length = indices.length := by
    rw [length_coalesce_of_nodup (by
      rw [keys_zip_zip hlen (by rw [List.length_replicate]; exact hlen)]
      exact hnd)]
    rw [List.length_zip, List.length_zip, List.length_replicate]
    omega
  show lenInv (SparseMatrix.init _ _ val?)
  apply init_lenInv
  · rw [List.length_map, List.length_map]
  · intro v hvv
    rw [List.length_map]
    exact (hv v hvv).trans hclen.symm
  · rw [List.zip_map']
    have : (fun (e : Entry) => (e.1.2, e.1.1)) =
        (fun (c : Coord) => (c.2, c.1)) ∘ (fun (e : Entry) => e.1) := rfl
    rw [this, ← List.map_map]
    apply List.Nodup.map
    · intro a b hab
      rcases a with ⟨a1, a2⟩
      rcases b with ⟨b1, b2⟩
      simp only [Prod.mk.injEq] at hab ⊢
      exact ⟨hab.2, hab.1⟩
    · exact nodup_of_sortedK (sorted_keys_coalesce _)

theorem setVal_lenInv {A B : SparseMatrix} {x : List Int}
    (h : A.setVal x = some B) : lenInv B := by
  unfold SparseMatrix.setVal at h
  by_cases hx : x.length = A.nnz
  · rw [if_pos hx] at h
    injection h with h
    subst h
    exact ⟨row_length_eq_nnz _, col_length_eq_nnz _, hx⟩
  · rw [if_neg hx] at h
    cases h

theorem call_lenInv {A B : SparseMatrix} {x : List Int}
    (hWF : A.WF) (h : A.call x = some B) : lenInv B := by
  unfold SparseMatrix.call at h
  by_cases hx : x.length = A.nnz
  · rw [if_pos hx] at h
    injection h with h
    subst h
    apply init_lenInv
    · rw [row_length_eq_nnz, col_length_eq_nnz]
    · intro v hvv
      have hv : v = x := (Option.some.inj hvv).symm
      subst hv
      rw [row_length_eq_nnz]
      exact hx
    · rw [row_zip_col]
      exact nodup_of_sortedK hWF
  · rw [if_neg hx] at h
    cases h

theorem init_keys_general {row col : List Nat} {val? : Option (List Int)}
    (hrc : row.length = col.length)
    (hv : row.length = (val?.getD (List.replicate row.length 1)).length) :
    (SparseMatrix.init row col val?).adj.entries.map (fun e => e.1) =
      coalesceKeys (row.zip col) := by
  rw [init_adj_entries, keys_coalesce, keys_zip_zip hrc hv]

theorem csr_pattern_helper {indptr indices : List Nat}
    {val? : Option (List Int)}
    (hlen : (csrExpandRows 0 indptr).length = indices.length)
    (hv : ∀ v, val? = some v → v.length = indices.length)
    (hnd : val? = none ∨ ((csrExpandRows 0 indptr).zip indices).Nodup) :
    (create_from_csr indptr indices val?).row =
      (create_from_coo (csrExpandRows 0 indptr) indices val?).row ∧
    (create_from_csr indptr indices val?).col =
      (create_from_coo (csrExpandRows 0 indptr) indices val?).col := by
  have hv2 : (csrExpandRows 0 indptr).length =
      (val?.getD (List.replicate (csrExpandRows 0 indptr).length 1)).length := by
    cases val? with
    | none => simp
    | some v => simpa using hlen.trans (hv v rfl).symm
  have hkeysR : (create_from_coo (csrExpandRows 0 indptr) indices
        val?).adj.entries.map (fun e => e.1) =
      coalesceKeys ((csrExpandRows 0 indptr).zip indices) := by
    show (SparseMatrix.init (csrExpandRows 0 indptr) indices
      val?).adj.entries.map (fun e => e.1) = _
    exact init_keys_general hlen hv2
  have hkeysC : (coalesce (((csrExpandRows 0 indptr).zip indices).zip
        (List.replicate indices.length 1))).map (fun e => e.1) =
      coalesceKeys ((csrExpandRows 0 indptr).zip indices) := by
    rw [keys_coalesce,
      keys_zip_zip hlen (by rw [List.length_replicate]; exact hlen)]
  have hvL : (coalesce (((csrExpandRows 0 indptr).zip indices).zip
        (List.replicate indices.length 1))).length =
      (val?.getD (List.replicate
        (coalesce (((csrExpandRows 0 indptr).zip indices).zip
          (List.replicate indices.length 1))).length 1)).length := by
    cases val? with
    | none => simp
    | some v =>
      rcases hnd with h | h
      · cases h
      · have hcl : (coalesce (((csrExpandRows 0 indptr).zip indices).zip
            (List.replicate indices.length 1))).length = indices.length := by
          rw [length_coalesce_of_nodup (by
            rw [keys_zip_zip hlen (by rw [List.length_replicate]; exact hlen)]
            exact h)]
          rw [List.length_zip, List.length_zip, List.length_replicate]
          omega
        simpa using hcl.trans (hv v rfl).symm
  have h1 : (create_from_csr indptr indices val?).adj.entries.map
        (fun e => e.1) =
      coalesceKeys ((coalesce (((csrExpandRows 0 indptr).zip indices).zip
        (List.replicate indices.length 1))).map (fun e => e.1)) := by
    show (SparseMatrix.init
      ((coalesce (((csrExpandRows 0 indptr).zip indices).zip
        (List.replicate indices.length 1))).map (fun e => e.1.1))
      ((coalesce (((csrExpandRows 0 indptr).zip indices).zip
        (List.replicate indices.length 1))).map (fun e => e.1.2))
      val?).adj.entries.map (fun e => e.1) = _
    rw [init_keys_general (by rw [List.length_map, List.length_map])
      (by simpa [List.length_map] using hvL), zip_map_fst_snd]
  have h2 : coalesceKeys ((coalesce (((csrExpandRows 0 indptr).zip
        indices).zip (List.replicate indices.length 1))).map
        (fun e => e.1)) =
      coalesceKeys ((csrExpandRows 0 indptr).zip indices) := by
    rw [coalesceKeys_of_sorted (sorted_keys_coalesce _), hkeysC]
  have hkeys := h1.trans (h2.trans hkeysR.symm)
  constructor
  · show (create_from_csr indptr indices val?).adj.entries.map
      (fun e => e.1.1) =
      (create_from_coo (csrExpandRows 0 indptr) indices
        val?).adj.entries.map (fun e => e.1.1)
    rw [map_rowIdx, map_rowIdx, hkeys]
  · show (create_from_csr indptr indices val?).adj.entries.map
      (fun e => e.1.2) =
      (create_from_coo (csrExpandRows 0 indptr) indices
        val?).adj.entries.map (fun e => e.1.2)
    rw [map_colIdx, map_colIdx, hkeys]

/-! ## Claims -/

/-- C1 counterexample: the `val` accessor returns the stored `_val`, which
is never reordered by coalescing, so for the unsorted input
`row = [1, 0]`, `col = [0, 0]`, `val = [10, 20]` the value stored at
`(row[0], col[0]) = (0, 0)` is `20` while `val[0] = 10`: `val[k]` is not
the value stored at `(row[k], col[k])`. -/
theorem C1_counterexample :
    ¬ ∀ k, k < (SparseMatrix.init [1, 0] [0, 0] (some [10, 20])).nnz →
      (SparseMatrix.init [1, 0] [0, 0] (some [10, 20])).dense
          ((SparseMatrix.init [1, 0] [0, 0] (some [10, 20])).row.getD k 0)
          ((SparseMatrix.init [1, 0] [0, 0] (some [10, 20])).col.getD k 0) =
        (SparseMatrix.init [1, 0] [0, 0] (some [10, 20])).val.getD k 0 := by
  decide

/-- C1 (amended): when the equal-length inputs are already coalesced (the
coordinate pairs are strictly sorted in row-major order), constructing
`SparseMatrix(row, col, val)` and reading back the accessors yields exactly
the inputs, and `val[k]` is the value stored at `(row[k], col[k])` for
every `k < nnz`. -/
theorem C1_readback_of_coalesced {row col : List Nat} {val : List Int}
    (hrc : row.length = col.length) (hrv : row.length = val.length)
    (hs : sortedK (row.zip col)) :
    (SparseMatrix.init row col (some val)).row = row ∧
    (SparseMatrix.init row col (some val)).col = col ∧
    (SparseMatrix.init row col (some val)).val = val ∧
    ∀ k, k < (SparseMatrix.init row col (some val)).nnz →
      (SparseMatrix.init row col (some val)).dense
          ((SparseMatrix.init row col (some val)).row.getD k 0)
          ((SparseMatrix.init row col (some val)).col.getD k 0) =
        (SparseMatrix.init row col (some val)).val.getD k 0 := by
  have hE := init_entries_of_sorted hrc hrv hs
  refine ⟨init_row_of_sorted hrc hrv hs, init_col_of_sorted hrc hrv hs,
    rfl, ?_⟩
  intro k hk
  rw [init_row_of_sorted hrc hrv hs, init_col_of_sorted hrc hrv hs]
  have hnnz : (SparseMatrix.init row col (some val)).nnz = row.length := by
    show (SparseMatrix.init row col (some val)).adj.entries.length = _
    rw [hE, List.length_zip, List.length_zip]
    omega
  rw [hnnz] at hk
  have hkc : k < col.length := by omega
  have hkv : k < val.length := by omega
  have hkzz : k < ((row.zip col).zip val).length := by
    rw [List.length_zip, List.length_zip]; omega
  have hnodup : (((row.zip col).zip val).map (fun x => x.1)).Nodup := by
    rw [keys_zip_zip hrc hrv]
    exact nodup_of_sortedK hs
  have hfind := findVal_get_of_nodup hnodup k hkzz
  have hget : ((row.zip col).zip val).get ⟨k, hkzz⟩ =
      ((row.getD k 0, col.getD k 0), val.getD k 0) := by
    rw [List.get_eq_getElem, List.getElem_zip, List.getElem_zip,
      List.getD_eq_getElem row 0 hk, List.getD_eq_getElem col 0 hkc,
      List.getD_eq_getElem val 0 hkv]
  rw [hget] at hfind
  show findVal (SparseMatrix.init row col (some val)).adj.entries
    (row.getD k 0, col.getD k 0) = val.getD k 0
  rw [hE]
  simpa using hfind

/-- C1 witness: the amended theorem applied to the sorted input
`row = [0, 1]`, `col = [0, 0]`, `val = [5, 7]`. -/
theorem C1_witness :
    (SparseMatrix.init [0, 1] [0, 0] (some [5, 7])).row = [0, 1] ∧
    (SparseMatrix.init [0, 1] [0, 0] (some [5, 7])).col = [0, 0] ∧
    (SparseMatrix.init [0, 1] [0, 0] (some [5, 7])).val = [5, 7] ∧
    (SparseMatrix.init [0, 1] [0, 0] (some [5, 7])).dense
        ((SparseMatrix.init [0, 1] [0, 0] (some [5, 7])).row.getD 0 0)
        ((SparseMatrix.init [0, 1] [0, 0] (some [5, 7])).col.getD 0 0) =
      (SparseMatrix.init [0, 1] [0, 0] (some [5, 7])).val.getD 0 0 := by
  have h := @C1_readback_of_coalesced [0, 1] [0, 0] [5, 7]
    (by decide) (by decide) (by decide)
  exact ⟨h.1, h.2.1, h.2.2.1, h.2.2.2 0 (by decide)⟩

/-- C2: for every `SparseMatrix` `A`, the methods `coo`, `csr` and `csc`
return `A` itself unchanged; no compressed-row or compressed-column
representation is ever produced. -/
theorem C2_coo_csr_csc_identity (A : SparseMatrix) :
    A.coo = A ∧ A.csr = A ∧ A.csc = A :=
  ⟨rfl, rfl, rfl⟩

/-- C3 counterexample: duplicate input coordinates are merged by
coalescing while `_val` keeps its original length, so for
`SparseMatrix([0, 0], [0, 0], [1, 2])` the value array has length `2`
but `nnz = 1`: the three accessor arrays do not all have length `nnz`. -/
theorem C3_counterexample :
    ¬ lenInv (SparseMatrix.init [0, 0] [0, 0] (some [1, 2])) := by
  decide

/-- C3 (amended): the row and column accessor arrays always have length
`nnz`; the value array has length `nnz` for every construction entry point
(from coordinates, CSR or CSC) whose input coordinates contain no
duplicates and whose value argument (when present) matches the input index
length, and this invariant is preserved by value replacement and by the
value-preserving copy. -/
theorem C3_length_invariant :
    (∀ (row col : List Nat) (val? : Option (List Int)),
        row.length = col.length →
        (∀ v, val? = some v → v.length = row.length) →
        (row.zip col).Nodup →
        lenInv (SparseMatrix.init row col val?)) ∧
    (∀ (indptr indices : List Nat) (val? : Option (List Int)),
        (csrExpandRows 0 indptr).length = indices.length →
        (∀ v, val? = some v → v.length = indices.length) →
        ((csrExpandRows 0 indptr).zip indices).Nodup →
        lenInv (create_from_csr indptr indices val?)) ∧
    (∀ (indptr indices : List Nat) (val? : Option (List Int)),
        (csrExpandRows 0 indptr).length = indices.length →
        (∀ v, val? = some v → v.length = indices.length) →
        ((csrExpandRows 0 indptr).zip indices).Nodup →
        lenInv (create_from_csc indptr indices val?)) ∧
    (∀ (A B : SparseMatrix) (x : List Int),
        A.setVal x = some B → lenInv B) ∧
    (∀ (A B : SparseMatrix) (x : List Int),
        A.WF → A.call x = some B → lenInv B) :=
  ⟨fun _ _ _ h1 h2 h3 => init_lenInv h1 h2 h3,
   fun _ _ _ h1 h2 h3 => create_from_csr_lenInv h1 h2 h3,
   fun _ _ _ h1 h2 h3 => create_from_csc_lenInv h1 h2 h3,
   fun _ _ _ h => setVal_lenInv h,
   fun _ _ _ h1 h2 => call_lenInv h1 h2⟩

/-- C3 witness: the amended invariant at concrete inputs for each entry
point, for value replacement and for the value-preserving copy. -/
theorem C3_witness :
    lenInv (SparseMatrix.init [0, 1] [0, 0] (some [5, 7])) ∧
    lenInv (create_from_csr [0, 1, 2, 5] [1, 2, 0, 1, 2] none) ∧
    lenInv (create_from_csc [0, 1, 3, 5] [2, 0, 2, 1, 2] none) ∧
    lenInv (SparseMatrix.mk [0, 1] [0, 0] [8, 9]
      ⟨2, 1, [((0, 0), 5), ((1, 0), 7)]⟩) ∧
    lenInv (SparseMatrix.mk [0, 1] [0, 0] [3, 4]
      ⟨2, 1, [((0, 0), 3), ((1, 0), 4)]⟩) := by
  refine ⟨?_, ?_, ?_, ?_, ?_⟩
  · exact C3_length_invariant.1 [0, 1] [0, 0] (some [5, 7]) (by decide)
      (fun v hvv => by injection hvv with h; subst h; decide) (by decide)
  · exact C3_length_invariant.2.1 [0, 1, 2, 5] [1, 2, 0, 1, 2] none
      (by decide) (fun v hvv => by cases hvv) (by decide)
  · exact C3_length_invariant.2.2.1 [0, 1, 3, 5] [2, 0, 2, 1, 2] none
      (by decide) (fun v hvv => by cases hvv) (by decide)
  · exact C3_length_invariant.2.2.2.1
      (SparseMatrix.init [0, 1] [0, 0] (some [5, 7])) _ [8, 9] (by rfl)
  · exact C3_length_invariant.2.2.2.2
      (SparseMatrix.init [0, 1] [0, 0] (some [5, 7])) _ [3, 4]
      (by decide) (by decide)

/-- C4: assigning `A.val = x` fails with an assertion error exactly when
`len(x)` differs from `A.nnz`, and the identical length check guards the
value-preserving copy `A(x)`. -/
theorem C4_val_guard (A : SparseMatrix) (x : List Int) :
    (A.setVal x = none ↔ x.length ≠ A.nnz) ∧
    (A.call x = none ↔ x.length ≠ A.nnz) := by
  by_cases hx : x.length = A.nnz <;>
    simp [SparseMatrix.setVal, SparseMatrix.call, hx]

/-- C5: compressed-row input converted to coordinates yields the same
nonzero pattern as the directly specified expanded coordinates, and in
particular `create_from_csr([0,1,2,5], [1,2,0,1,2])` has row accessor
`[0, 1, 2, 2, 2]` and column accessor `[1, 2, 0, 1, 2]`. -/
theorem C5_csr_coo_same_pattern :
    (∀ (indptr indices : List Nat) (val? : Option (List Int)),
      (csrExpandRows 0 indptr).length = indices.length →
      (∀ v, val? = some v → v.length = indices.length) →
      (val? = none ∨ ((csrExpandRows 0 indptr).zip indices).Nodup) →
      (create_from_csr indptr indices val?).row =
        (create_from_coo (csrExpandRows 0 indptr) indices val?).row ∧
      (create_from_csr indptr indices val?).col =
        (create_from_coo (csrExpandRows 0 indptr) indices val?).col) ∧
    (create_from_csr [0, 1, 2, 5] [1, 2, 0, 1, 2] none).row =
      [0, 1, 2, 2, 2] ∧
    (create_from_csr [0, 1, 2, 5] [1, 2, 0, 1, 2] none).col =
      [1, 2, 0, 1, 2] := by
  refine ⟨?_, by decide, by decide⟩
  intro indptr indices val? hlen hv hnd
  exact csr_pattern_helper hlen hv hnd

/-- C5 witness: the pattern equality applied to the spec's concrete CSR
example. -/
theorem C5_witness :
    (create_from_csr [0, 1, 2, 5] [1, 2, 0, 1, 2] none).row =
      (create_from_coo (csrExpandRows 0 [0, 1, 2, 5]) [1, 2, 0, 1, 2]
        none).row ∧
    (create_from_csr [0, 1, 2, 5] [1, 2, 0, 1, 2] none).col =
      (create_from_coo (csrExpandRows 0 [0, 1, 2, 5]) [1, 2, 0, 1, 2]
        none).col :=
  C5_csr_coo_same_pattern.1 [0, 1, 2, 5] [1, 2, 0, 1, 2] none
    (by decide) (fun v hvv => by cases hvv) (Or.inl rfl)

/-- C6: for a matrix constructed from nonempty row and column index arrays
(with a well-lengthed or omitted value argument), the `shape` accessor
returns `(max row index + 1, max col index + 1)`; the maxima over the
coalesced accessor arrays agree with the maxima over the inputs. -/
theorem C6_shape_max {row col : List Nat} {val? : Option (List Int)}
    (hrc : row.length = col.length)
    (hv : ∀ v, val? = some v → v.length = row.length)
    (hne : 0 < row.length) :
    (SparseMatrix.init row col val?).shape =
      (maxL (SparseMatrix.init row col val?).row + 1,
        maxL (SparseMatrix.init row col val?).col + 1) ∧
    (SparseMatrix.init row col val?).shape =
      (maxL row + 1, maxL col + 1) := by
  have hval : SparseMatrix.init row col val? =
      SparseMatrix.init row col
        (some (val?.getD (List.replicate row.length 1))) := by
    cases val? <;> rfl
  have hvlen : row.length =
      (val?.getD (List.replicate row.length 1)).length := by
    cases val? with
    | none => simp
    | some v => simpa using (hv v rfl).symm
  have h1 : maxL (SparseMatrix.init row col val?).row = maxL row := by
    rw [hval]
    exact maxL_eq_of_mem_iff (fun x => mem_row_init hrc hvlen x)
  have h2 : maxL (SparseMatrix.init row col val?).col = maxL col := by
    rw [hval]
    exact maxL_eq_of_mem_iff (fun x => mem_col_init hrc hvlen x)
  refine ⟨?_, rfl⟩
  rw [h1, h2]
  rfl

/-- C6 witness: the shape law at the docstring example
`SparseMatrix([1, 1, 2], [2, 4, 3])`, whose shape is `(3, 5)`. -/
theorem C6_witness :
    (SparseMatrix.init [1, 1, 2] [2, 4, 3] none).shape =
      (maxL (SparseMatrix.init [1, 1, 2] [2, 4, 3] none).row + 1,
        maxL (SparseMatrix.init [1, 1, 2] [2, 4, 3] none).col + 1) ∧
    (SparseMatrix.init [1, 1, 2] [2, 4, 3] none).shape =
      (maxL [1, 1, 2] + 1, maxL [2, 4, 3] + 1) :=
  @C6_shape_max [1, 1, 2] [2, 4, 3] none (by decide)
    (fun v hvv => by cases hvv) (by decide)

/-- C7: constructing with the value argument omitted yields an all-ones
value array whose length equals the length of the input row index array. -/
theorem C7_default_val_ones (row col : List Nat) :
    (SparseMatrix.init row col none).val = List.replicate row.length 1 ∧
    (SparseMatrix.init row col none).val.length = row.length ∧
    ∀ v ∈ (SparseMatrix.init row col none).val, v = 1 := by
  refine ⟨rfl, List.length_replicate _ _, ?_⟩
  intro v hv
  exact List.eq_of_mem_replicate hv

/-- C7 witness: the all-ones default at the docstring example
`SparseMatrix([1, 1, 2], [2, 4, 3])`. -/
theorem C7_witness :
    (SparseMatrix.init [1, 1, 2] [2, 4, 3] none).val = [1, 1, 1] ∧
    (SparseMatrix.init [1, 1, 2] [2, 4, 3] none).val.length = 3 ∧
    (1 : Int) = 1 :=
  ⟨(C7_default_val_ones [1, 1, 2] [2, 4, 3]).1,
   (C7_default_val_ones [1, 1, 2] [2, 4, 3]).2.1,
   (C7_default_val_ones [1, 1, 2] [2, 4, 3]).2.2 1 (by decide)⟩

/-- C8: for a well-formed matrix `A` and values `x` with
`len(x) = A.nnz`, the copy `A(x)` is a fresh construction whose `row` and
`col` accessors return the same arrays as `A`'s and whose `val` accessor
returns `x`. (Python object identity of the new instance is not
expressible in this embedding; `call` builds the result with a new
constructor invocation by definition.) -/
theorem C8_call_copy {A B : SparseMatrix} {x : List Int}
    (hWF : A.WF) (h : A.call x = some B) :
    B.row = A.row ∧ B.col = A.col ∧ B.val = x := by
  unfold SparseMatrix.call at h
  by_cases hx : x.length = A.nnz
  · rw [if_pos hx] at h
    injection h with h
    subst h
    have hrc : A.row.length = A.col.length := by
      rw [row_length_eq_nnz, col_length_eq_nnz]
    have hrv : A.row.length = x.length := by
      rw [row_length_eq_nnz]
      exact hx.symm
    have hs : sortedK (A.row.zip A.col) := by
      rw [row_zip_col]
      exact hWF
    exact ⟨init_row_of_sorted hrc hrv hs, init_col_of_sorted hrc hrv hs, rfl⟩
  · rw [if_neg hx] at h
    cases h

/-- C8 witness: the copy law for `A = SparseMatrix([0, 1], [0, 0], [5, 7])`
and `x = [9, 8]`. -/
theorem C8_witness :
    (SparseMatrix.mk [0, 1] [0, 0] [9, 8]
        ⟨2, 1, [((0, 0), 9), ((1, 0), 8)]⟩).row =
      (SparseMatrix.init [0, 1] [0, 0] (some [5, 7])).row ∧
    (SparseMatrix.mk [0, 1] [0, 0] [9, 8]
        ⟨2, 1, [((0, 0), 9), ((1, 0), 8)]⟩).col =
      (SparseMatrix.init [0, 1] [0, 0] (some [5, 7])).col ∧
    (SparseMatrix.mk [0, 1] [0, 0] [9, 8]
        ⟨2, 1, [((0, 0), 9), ((1, 0), 8)]⟩).val = [9, 8] := by
  have h : (SparseMatrix.init [0, 1] [0, 0] (some [5, 7])).call [9, 8] =
      some (SparseMatrix.mk [0, 1] [0, 0] [9, 8]
        ⟨2, 1, [((0, 0), 9), ((1, 0), 8)]⟩) := by decide
  exact C8_call_copy (by decide) h

/-- C9: `A.indices(format, return_shuffle)` returns the pair of coalesced
coordinate index arrays when `format = 'COO'` and `return_shuffle` is
false, and raises `NotImplementedError` for every other combination. -/
theorem C9_indices_coo_only (A : SparseMatrix) (format : String)
    (rs : Bool) :
    (format = "COO" → rs = false →
      A.indices format rs = some (A.row, A.col)) ∧
    (¬ (format = "COO" ∧ rs = false) → A.indices format rs = none) := by
  constructor
  · intro h1 h2
    simp [SparseMatrix.indices, h1, h2]
  · intro h
    simp only [SparseMatrix.indices, if_neg h]

/-- C9 witness: the `COO` no-shuffle query succeeds and a `CSR` query
fails as unimplemented, at the docstring example. -/
theorem C9_witness :
    (SparseMatrix.init [1, 1, 2] [2, 4, 3] none).indices "COO" false =
      some ([1, 1, 2], [2, 4, 3]) ∧
    (SparseMatrix.init [1, 1, 2] [2, 4, 3] none).indices "CSR" false =
      none :=
  ⟨(C9_indices_coo_only (SparseMatrix.init [1, 1, 2] [2, 4, 3] none)
      "COO" false).1 rfl rfl,
   (C9_indices_coo_only (SparseMatrix.init [1, 1, 2] [2, 4, 3] none)
      "CSR" false).2 (by decide)⟩

/-- C10: a successful `A.val = x` assignment leaves the internal coalesced
tensor `adj` unchanged, so `A.dense()` after the assignment returns the
same function as before, reflecting the construction-time values and not
`x`. -/
theorem C10_setVal_frame {A B : SparseMatrix} {x : List Int}
    (h : A.setVal x = some B) :
    B.adj = A.adj ∧ ∀ i j, B.dense i j = A.dense i j := by
  unfold SparseMatrix.setVal at h
  by_cases hx : x.length = A.nnz
  · rw [if_pos hx] at h
    injection h with h
    subst h
    exact ⟨rfl, fun i j => rfl⟩
  · rw [if_neg hx] at h
    cases h

/-- C10 witness: after replacing the values of
`SparseMatrix([1, 0], [0, 0], [10, 20])` by `[7, 8]`, the internal tensor
and the dense reading at `(0, 0)` are unchanged (the dense entry stays
`20`, not `7` or `8`). -/
theorem C10_witness :
    (SparseMatrix.mk [1, 0] [0, 0] [7, 8]
        ⟨2, 1, [((0, 0), 20), ((1, 0), 10)]⟩).adj =
      (SparseMatrix.init [1, 0] [0, 0] (some [10, 20])).adj ∧
    (SparseMatrix.mk [1, 0] [0, 0] [7, 8]
        ⟨2, 1, [((0, 0), 20), ((1, 0), 10)]⟩).dense 0 0 =
      (SparseMatrix.init [1, 0] [0, 0] (some [10, 20])).dense 0 0 := by
  have h : (SparseMatrix.init [1, 0] [0, 0] (some [10, 20])).setVal
      [7, 8] = some (SparseMatrix.mk [1, 0] [0, 0] [7, 8]
        ⟨2, 1, [((0, 0), 20), ((1, 0), 10)]⟩) := by rfl
  exact ⟨(C10_setVal_frame h).1, (C10_setVal_frame h).2 0 0⟩
